import Mathlib

/-!
Verification of `certora/checker/create_certificate.py`.

The script reconstructs a Merkle DAG from per-account membership proofs
(`populate`, which fills the module-level dictionaries `hash_to_address`,
`hash_to_value`, `left`, `right`) and then serializes it by a recursive
post-order traversal (`walk`) into a flat certificate.

Embedding choices:
* Python hashes and addresses are strings (hex strings in practice); they are
  modelled as Lean `String`.  Python's string comparison `<=` (lexicographic on
  code points) is modelled by the executable `charsLe`/`strLe` below, Python's
  slicing `[:n]` by `strTake`, and dictionaries by association lists where the
  most recent assignment is the head (`List.lookup` returns it first, exactly
  like a dictionary overwrite).
* `w3.solidity_keccak` (together with `w3.to_hex`, and `w3.to_checksum_address`
  for the leaf case) is an external opaque primitive; the development is
  parametrized by a `Hasher` providing `keccak_node` and `keccak_leaf`.
  Concrete witnesses instantiate it with executable toy hashers.
* Python's recursion limit for the recursive `walk` is modelled by an explicit
  fuel parameter; exceeding it is `RunError.recLimit` (a `RecursionError`), a
  missing dictionary key is `RunError.keyErr` (a `KeyError`).
-/

/-- Lexicographic comparison of code-point lists, Python's `<=` on strings. -/
def charsLe : List Char → List Char → Bool
  | [], _ => true
  | _ :: _, [] => false
  | a :: as, b :: bs => if a < b then true else if b < a then false else charsLe as bs

/-- Python's `a <= b` on strings (lexicographic on code points). -/
def strLe (a b : String) : Bool := charsLe a.data b.data

/-- Python's `s[:n]` on a string. -/
def strTake (s : String) (n : Nat) : String := String.mk (s.data.take n)

/-- Lower-casing of the hex letters, the case-normalization performed by
`w3.to_checksum_address` before hashing (EIP-55 checksumming is
case-insensitive in its input). -/
def lowerChar (c : Char) : Char :=
  if c = 'A' then 'a' else if c = 'B' then 'b' else if c = 'C' then 'c'
  else if c = 'D' then 'd' else if c = 'E' then 'e' else if c = 'F' then 'f' else c

/-- Case-normalization of a hex string, used by toy instantiations of
`keccak_leaf` to model the case-insensitivity of `to_checksum_address`. -/
def strLower (s : String) : String := String.mk (s.data.map lowerChar)

/-- The opaque hash primitives of the script: `keccak_node` is
`w3.to_hex(w3.solidity_keccak(["bytes32","bytes32"], [l, r]))` and
`keccak_leaf` is `w3.to_hex(w3.solidity_keccak(["address","uint256"],
[w3.to_checksum_address(address), amount]))`. -/
structure Hasher where
  keccak_node : String → String → String
  keccak_leaf : String → Int → String

/-- The conditional `[computedHash, proofElement] if computedHash <= proofElement
else [proofElement, computedHash]` from `populate`. -/
def sortPair (a b : String) : String × String :=
  if strLe a b then (a, b) else (b, a)

/-- One combining step of `populate`: sort the pair, then hash it. -/
def combine (H : Hasher) (a b : String) : String :=
  H.keccak_node (sortPair a b).1 (sortPair a b).2

/-- The module-level dictionaries of the script.  Head of each list is the most
recent assignment. -/
structure RState where
  hash_to_address : List (String × String)
  hash_to_value : List (String × Int)
  left : List (String × String)
  right : List (String × String)
deriving DecidableEq

/-- The dictionaries at module load: all empty. -/
def emptyState : RState := ⟨[], [], [], []⟩

/-- The `for proofElement in proof` loop of `populate`, threading
`computedHash`. -/
def populateLoop (H : Hasher) : String → List String → RState → RState
  | _, [], s => s
  | computedHash, proofElement :: rest, s =>
    let lr := sortPair computedHash proofElement
    let c := H.keccak_node lr.1 lr.2
    populateLoop H c rest
      { hash_to_address := (c, strTake (H.keccak_node c c) 42) :: s.hash_to_address
        hash_to_value := s.hash_to_value
        left := (c, lr.1) :: s.left
        right := (c, lr.2) :: s.right }

/-- The `populate(address, amount, proof)` function of the script. -/
def populate (H : Hasher) (address : String) (amount : Int) (proof : List String)
    (s : RState) : RState :=
  let computedHash := H.keccak_leaf address amount
  populateLoop H computedHash proof
    { hash_to_address := (computedHash, address) :: s.hash_to_address
      hash_to_value := (computedHash, amount) :: s.hash_to_value
      left := s.left
      right := s.right }

/-- One record of `certificate["leaf"]`. -/
structure LeafRecord where
  addr : String
  value : Int
deriving DecidableEq

/-- One record of `certificate["node"]`. -/
structure NodeRecord where
  addr : String
  left : String
  right : String
deriving DecidableEq

/-- Run-time failures of the script: a dictionary `KeyError` with its key, or
exhaustion of the recursion limit (`RecursionError`). -/
inductive RunError where
  | keyErr (key : String)
  | recLimit
deriving DecidableEq

/-- The recursive `walk(h)`, threading the pair
(`certificate["leaf"]`, `certificate["node"]`) and performing the dictionary
lookups in Python evaluation order. -/
def walk (s : RState) : Nat → String → List LeafRecord × List NodeRecord →
    Except RunError (List LeafRecord × List NodeRecord)
  | 0, _, _ => .error .recLimit
  | Nat.succ fuel, h, acc =>
    match List.lookup h s.left with
    | some lh =>
      match walk s fuel lh acc with
      | .error e => .error e
      | .ok acc1 =>
        match List.lookup h s.right with
        | none => .error (.keyErr h)
        | some rh =>
          match walk s fuel rh acc1 with
          | .error e => .error e
          | .ok acc2 =>
            match List.lookup h s.hash_to_address with
            | none => .error (.keyErr h)
            | some a =>
              match List.lookup lh s.hash_to_address with
              | none => .error (.keyErr lh)
              | some al =>
                match List.lookup rh s.hash_to_address with
                | none => .error (.keyErr rh)
                | some ar => .ok (acc2.1, acc2.2 ++ [⟨a, al, ar⟩])
    | none =>
      match List.lookup h s.hash_to_address with
      | none => .error (.keyErr h)
      | some a =>
        match List.lookup h s.hash_to_value with
        | none => .error (.keyErr h)
        | some v => .ok (acc.1 ++ [⟨a, v⟩], acc.2)

/-- One entry of the input's `proofs` mapping (`address -> {amount, proof}`),
in dictionary insertion order. -/
structure ProofEntry where
  address : String
  amount : Int
  proof : List String
deriving DecidableEq

/-- The parsed input file: `root`, the (possibly absent) `total`, and the
`proofs` mapping in insertion order. -/
structure InputData where
  root : String
  total : Option Int
  proofs : List ProofEntry
deriving DecidableEq

/-- The finished certificate object that the script serializes to
`certificate.json`. -/
structure Cert where
  root : String
  total : Int
  leaf : List LeafRecord
  node : List NodeRecord
  leafLength : Nat
  nodeLength : Nat
deriving DecidableEq

/-- The `for address, data in proofs["proofs"].items(): populate(...)` loop. -/
def processAll (H : Hasher) (entries : List ProofEntry) (s : RState) : RState :=
  match entries with
  | [] => s
  | e :: es => processAll H es (populate H e.address e.amount e.proof s)

/-- The top-level script body: copy `root`, extract `total` (a `KeyError` when
absent), populate from every proof, walk from the declared root, attach the
lengths. -/
def run (H : Hasher) (fuel : Nat) (input : InputData) : Except RunError Cert :=
  match input.total with
  | none => .error (.keyErr "total")
  | some t =>
    match walk (processAll H input.proofs emptyState) fuel input.root ([], []) with
    | .error e => .error e
    | .ok acc => .ok ⟨input.root, t, acc.1, acc.2, acc.1.length, acc.2.length⟩

/-- The top-level script body with the populate phase performed twice over the
same proof set before the walk. -/
def runTwice (H : Hasher) (fuel : Nat) (input : InputData) : Except RunError Cert :=
  match input.total with
  | none => .error (.keyErr "total")
  | some t =>
    match walk (processAll H input.proofs (processAll H input.proofs emptyState))
        fuel input.root ([], []) with
    | .error e => .error e
    | .ok acc => .ok ⟨input.root, t, acc.1, acc.2, acc.1.length, acc.2.length⟩

/-- The sequence of `computedHash` values derived by the `populate` loop,
starting from a given hash: the hash itself, then every parent derived from a
proof element. -/
def chainFrom (H : Hasher) : String → List String → List String
  | c, [] => [c]
  | c, p :: ps => c :: chainFrom H (combine H c p) ps

/-- All hashes derived while populating one proof entry: the leaf hash and
every accumulated parent hash. -/
def chainHashes (H : Hasher) (address : String) (amount : Int)
    (proof : List String) : List String :=
  chainFrom H (H.keccak_leaf address amount) proof

/-- The `addr` fields of a leaf-record list. -/
def leafAddrs (l : List LeafRecord) : List String := l.map LeafRecord.addr

/-- The `addr` fields of a node-record list. -/
def nodeAddrs (n : List NodeRecord) : List String := n.map NodeRecord.addr

/-- Topological soundness of a certificate: each node record's `left` and
`right` identifiers occur as the `addr` of some leaf record (all of which the
consumer processes first) or of a strictly earlier node record. -/
def TopoSound (l : List LeafRecord) (n : List NodeRecord) : Prop :=
  ∀ i (hi : i < n.length),
    (n.get ⟨i, hi⟩).left ∈ leafAddrs l ++ nodeAddrs (n.take i) ∧
    (n.get ⟨i, hi⟩).right ∈ leafAddrs l ++ nodeAddrs (n.take i)

/-- Reachability through the recorded `left`/`right` child dictionaries, as
`walk` follows them: children are followed only for hashes present in
`left`. -/
inductive Reach (s : RState) : String → String → Prop where
  | refl (h : String) : Reach s h h
  | viaLeft {h l h' : String} : List.lookup h s.left = some l →
      Reach s l h' → Reach s h h'
  | viaRight {h r h' : String} : (∃ l, List.lookup h s.left = some l) →
      List.lookup h s.right = some r → Reach s r h' → Reach s h h'

/-- Two dictionary states that answer every lookup identically. -/
def lookEq (s1 s2 : RState) : Prop :=
  (∀ k, List.lookup k s1.hash_to_address = List.lookup k s2.hash_to_address) ∧
  (∀ k, List.lookup k s1.hash_to_value = List.lookup k s2.hash_to_value) ∧
  (∀ k, List.lookup k s1.left = List.lookup k s2.left) ∧
  (∀ k, List.lookup k s1.right = List.lookup k s2.right)

/-- Pairwise alignment of the `left` and `right` dictionaries: entry by entry,
the keys agree and the recorded left child is at most the recorded right child
in Python string order. -/
def alignedLE : List (String × String) → List (String × String) → Prop
  | [], [] => True
  | (k1, v1) :: t1, (k2, v2) :: t2 => k1 = k2 ∧ strLe v1 v2 = true ∧ alignedLE t1 t2
  | _, _ => False

/-- Value of one hex digit. -/
def hexDigit (c : Char) : Option Nat :=
  if c = '0' then some 0 else if c = '1' then some 1 else if c = '2' then some 2
  else if c = '3' then some 3 else if c = '4' then some 4 else if c = '5' then some 5
  else if c = '6' then some 6 else if c = '7' then some 7 else if c = '8' then some 8
  else if c = '9' then some 9 else if c = 'a' ∨ c = 'A' then some 10
  else if c = 'b' ∨ c = 'B' then some 11 else if c = 'c' ∨ c = 'C' then some 12
  else if c = 'd' ∨ c = 'D' then some 13 else if c = 'e' ∨ c = 'E' then some 14
  else if c = 'f' ∨ c = 'F' then some 15 else none

/-- Decode pairs of hex digits into byte values. -/
def hexPairs : List Char → Option (List Nat)
  | [] => some []
  | [_] => none
  | c1 :: c2 :: rest =>
    match hexDigit c1, hexDigit c2, hexPairs rest with
    | some a, some b, some t => some ((16 * a + b) :: t)
    | _, _, _ => none

/-- The raw bytes denoted by a `0x`-prefixed hex string. -/
def hexBytes (s : String) : Option (List Nat) :=
  match s.data with
  | '0' :: 'x' :: rest => hexPairs rest
  | _ => none

/-- Byte-wise lexicographic comparison of raw byte sequences. -/
def bytesLE : List Nat → List Nat → Bool
  | [], _ => true
  | _ :: _, [] => false
  | a :: as, b :: bs => if a < b then true else if b < a then false else bytesLE as bs

/-- An executable toy instantiation of the opaque hash primitives, used for
concrete scenarios.  The leaf hash case-normalizes the address exactly as
`to_checksum_address` does before hashing. -/
def toyHasher : Hasher where
  keccak_node := fun l r => "N(" ++ l ++ "," ++ r ++ ")"
  keccak_leaf := fun a v => "L" ++ strLower a ++ ":" ++ toString v

/-- A toy instantiation whose outputs are 32-byte lowercase hex strings, the
shape `w3.to_hex` actually produces. -/
def hexHasher : Hasher where
  keccak_node := fun _ _ => "0x" ++ String.mk (List.replicate 64 'b')
  keccak_leaf := fun _ _ => "0x" ++ String.mk (List.replicate 64 'a')

/-! ## Basic facts about the Python string order -/

lemma charsLe_nil (bs : List Char) : charsLe [] bs = true := by
  cases bs <;> rfl

lemma charsLe_of_not (as bs : List Char) (h : charsLe as bs = false) :
    charsLe bs as = true := by
  induction as generalizing bs with
  | nil => simp [charsLe_nil] at h
  | cons a as ih =>
    cases bs with
    | nil => exact charsLe_nil _
    | cons b bs =>
      simp only [charsLe] at h ⊢
      by_cases hab : a < b
      · simp [hab] at h
      · by_cases hba : b < a
        · simp [hab, hba] at h ⊢
        · simp [hab, hba] at h ⊢
          exact ih bs h

lemma charsLe_antisymm (as bs : List Char) (h1 : charsLe as bs = true)
    (h2 : charsLe bs as = true) : as = bs := by
  induction as generalizing bs with
  | nil =>
    cases bs with
    | nil => rfl
    | cons b bs => simp [charsLe] at h2
  | cons a as ih =>
    cases bs with
    | nil => simp [charsLe] at h1
    | cons b bs =>
      simp only [charsLe] at h1 h2
      by_cases hab : a < b
      · have : ¬ b < a := lt_asymm hab
        simp [hab, this] at h2
      · by_cases hba : b < a
        · simp [hab, hba] at h1
        · have hab' : a = b := le_antisymm (le_of_not_lt hba) (le_of_not_lt hab)
          simp [hab, hba] at h1 h2
          exact congrArg₂ List.cons hab' (ih bs h1 h2)

lemma strLe_of_not (a b : String) (h : strLe a b = false) : strLe b a = true :=
  charsLe_of_not a.data b.data h

lemma strLe_antisymm (a b : String) (h1 : strLe a b = true) (h2 : strLe b a = true) :
    a = b :=
  congrArg String.mk (charsLe_antisymm a.data b.data h1 h2)

lemma sortPair_comm (a b : String) : sortPair a b = sortPair b a := by
  unfold sortPair
  cases h1 : strLe a b with
  | true =>
    cases h2 : strLe b a with
    | true => simp [strLe_antisymm a b h1 h2]
    | false => simp
  | false =>
    cases h2 : strLe b a with
    | true => simp
    | false => exact absurd (strLe_of_not a b h1) (by simp [h2])

lemma combine_comm (H : Hasher) (a b : String) : combine H a b = combine H b a := by
  unfold combine
  rw [sortPair_comm]

/-- C6: for all hash values `a` and `b`, the parent hash computed by the
canonically ordered combining step of `populate` (sort the pair in Python
string order, then apply `keccak_node`) is commutative in its two inputs. -/
theorem C6_combine_commutative (H : Hasher) (a b : String) :
    combine H a b = combine H b a :=
  combine_comm H a b

/-! ## Association-list lookup facts -/

lemma lookup_append_some {α β : Type} [BEq α] (l1 l2 : List (α × β)) (k : α) (v : β)
    (h : List.lookup k l1 = some v) : List.lookup k (l1 ++ l2) = some v := by
  induction l1 with
  | nil => simp [List.lookup] at h
  | cons e l1 ih =>
    obtain ⟨ek, ev⟩ := e
    simp only [List.cons_append, List.lookup] at h ⊢
    cases hk : k == ek with
    | true => rw [hk] at h; exact h
    | false => rw [hk] at h; exact ih h

lemma lookup_append_none {α β : Type} [BEq α] (l1 l2 : List (α × β)) (k : α)
    (h : List.lookup k l1 = none) : List.lookup k (l1 ++ l2) = List.lookup k l2 := by
  induction l1 with
  | nil => rfl
  | cons e l1 ih =>
    obtain ⟨ek, ev⟩ := e
    simp only [List.cons_append, List.lookup] at h ⊢
    cases hk : k == ek with
    | true => rw [hk] at h; exact Option.noConfusion h
    | false => rw [hk] at h; exact ih h

lemma lookup_append_isSome {α β : Type} [BEq α] (l1 l2 : List (α × β)) (k : α)
    (h : List.lookup k l2 ≠ none) : List.lookup k (l1 ++ l2) ≠ none := by
  cases h1 : List.lookup k l1 with
  | some v => simp [lookup_append_some l1 l2 k v h1]
  | none => rw [lookup_append_none l1 l2 k h1]; exact h

/-! ## The populate phase writes ahead of the prior state -/

lemma populateLoop_append (H : Hasher) (p : List String) (c : String) (s : RState) :
    populateLoop H c p s =
      ⟨(populateLoop H c p emptyState).hash_to_address ++ s.hash_to_address,
       (populateLoop H c p emptyState).hash_to_value ++ s.hash_to_value,
       (populateLoop H c p emptyState).left ++ s.left,
       (populateLoop H c p emptyState).right ++ s.right⟩ := by
  induction p generalizing c s with
  | nil => simp [populateLoop, emptyState]
  | cons pe rest ih =>
    simp only [populateLoop, emptyState]
    rw [ih]
    conv_rhs => rw [ih]
    simp [List.append_assoc]

lemma populate_append (H : Hasher) (a : String) (v : Int) (p : List String) (s : RState) :
    populate H a v p s =
      ⟨(populate H a v p emptyState).hash_to_address ++ s.hash_to_address,
       (populate H a v p emptyState).hash_to_value ++ s.hash_to_value,
       (populate H a v p emptyState).left ++ s.left,
       (populate H a v p emptyState).right ++ s.right⟩ := by
  unfold populate
  rw [populateLoop_append]
  conv_rhs => rw [populateLoop_append]
  simp [emptyState, List.append_assoc]

lemma processAll_append (H : Hasher) (es : List ProofEntry) (s : RState) :
    processAll H es s =
      ⟨(processAll H es emptyState).hash_to_address ++ s.hash_to_address,
       (processAll H es emptyState).hash_to_value ++ s.hash_to_value,
       (processAll H es emptyState).left ++ s.left,
       (processAll H es emptyState).right ++ s.right⟩ := by
  induction es generalizing s with
  | nil => simp [processAll, emptyState]
  | cons e es ih =>
    simp only [processAll]
    rw [ih, populate_append]
    conv_rhs => rw [ih, populate_append]
    simp [emptyState, List.append_assoc]

/-! ## Canonical sibling order (claim C5) -/

lemma strLe_sortPair (a b : String) : strLe (sortPair a b).1 (sortPair a b).2 = true := by
  unfold sortPair
  cases h : strLe a b with
  | true => simpa using h
  | false => simpa using strLe_of_not a b h

lemma alignedLE_populateLoop (H : Hasher) (p : List String) (c : String) (s : RState)
    (h : alignedLE s.left s.right) :
    alignedLE (populateLoop H c p s).left (populateLoop H c p s).right := by
  induction p generalizing c s with
  | nil => exact h
  | cons pe rest ih =>
    simp only [populateLoop]
    exact ih _ _ ⟨rfl, strLe_sortPair c pe, h⟩

lemma alignedLE_populate (H : Hasher) (a : String) (v : Int) (p : List String)
    (s : RState) (h : alignedLE s.left s.right) :
    alignedLE (populate H a v p s).left (populate H a v p s).right := by
  unfold populate
  exact alignedLE_populateLoop H p _ _ h

lemma alignedLE_processAll (H : Hasher) (es : List ProofEntry) (s : RState)
    (h : alignedLE s.left s.right) :
    alignedLE (processAll H es s).left (processAll H es s).right := by
  induction es generalizing s with
  | nil => exact h
  | cons e es ih =>
    simp only [processAll]
    exact ih _ (alignedLE_populate H _ _ _ _ h)

/-- The 32-byte sibling hash `0xFF…F` written in upper-case hex, a valid
`bytes32` input the script accepts verbatim inside a proof path. -/
def ffStr : String := "0x" ++ String.mk (List.replicate 64 'F')

/-- The lower-case 32-byte hex output `0xaa…a` of `hexHasher.keccak_leaf`. -/
def aaStr : String := "0x" ++ String.mk (List.replicate 64 'a')

/-- The lower-case 32-byte hex output `0xbb…b` of `hexHasher.keccak_node`. -/
def bbStr : String := "0x" ++ String.mk (List.replicate 64 'b')

/-- C5, counterexample: with a lower-case computed leaf hash `0xaa…a` and an
upper-case proof element `0xFF…F`, `populate` records the internal node with
left child `0xFF…F` and right child `0xaa…a`, because Python compares the hex
strings (where `'F' < 'a'`); the recorded left child's raw bytes `FF…` are
byte-wise lexicographically greater than the right child's raw bytes `aa…`,
refuting the byte-wise ordering claim. -/
theorem C5_counterexample :
    (populate hexHasher "0xq" 100 [ffStr] emptyState).left = [(bbStr, ffStr)] ∧
    (populate hexHasher "0xq" 100 [ffStr] emptyState).right = [(bbStr, aaStr)] ∧
    hexBytes ffStr = some (List.replicate 32 255) ∧
    hexBytes aaStr = some (List.replicate 32 170) ∧
    bytesLE (List.replicate 32 255) (List.replicate 32 170) = false := by
  refine ⟨by decide, by decide, by decide, by decide, by decide⟩

/-- C5, amended: every internal node recorded by the populate phase has its
left child at most its right child in Python string order on the hex-string
representations (which coincides with byte-wise order on the raw bytes only
when both strings use the same hex letter case): entry by entry, the `left`
and `right` dictionaries carry the same keys and `strLe left right`. -/
theorem C5_left_le_right_string_order (H : Hasher) (entries : List ProofEntry) :
    alignedLE (processAll H entries emptyState).left
      (processAll H entries emptyState).right :=
  alignedLE_processAll H entries emptyState trivial

/-! ## The populate phase registers every derived hash (claim C4) -/

lemma lookup_cons_self {α β : Type} [BEq α] [LawfulBEq α] (k : α) (v : β)
    (l : List (α × β)) : List.lookup k ((k, v) :: l) = some v := by
  simp [List.lookup]

lemma lookup_cons_ne_none {α β : Type} [BEq α] (k k' : α) (v : β) (l : List (α × β))
    (h : List.lookup k l ≠ none) : List.lookup k ((k', v) :: l) ≠ none := by
  simp only [List.lookup]
  cases hk : k == k' with
  | true => simp
  | false => exact h

lemma populateLoop_mono (H : Hasher) (p : List String) (c : String) (s : RState)
    (k : String) (h : List.lookup k s.hash_to_address ≠ none) :
    List.lookup k (populateLoop H c p s).hash_to_address ≠ none := by
  rw [populateLoop_append]
  exact lookup_append_isSome _ _ _ h

lemma processAll_mono (H : Hasher) (es : List ProofEntry) (s : RState)
    (k : String) (h : List.lookup k s.hash_to_address ≠ none) :
    List.lookup k (processAll H es s).hash_to_address ≠ none := by
  rw [processAll_append]
  exact lookup_append_isSome _ _ _ h

lemma populateLoop_registers (H : Hasher) (p : List String) (c : String) (s : RState)
    (hc : List.lookup c s.hash_to_address ≠ none) :
    ∀ h ∈ chainFrom H c p,
      List.lookup h (populateLoop H c p s).hash_to_address ≠ none := by
  induction p generalizing c s with
  | nil =>
    intro h hh
    simp only [chainFrom, List.mem_singleton] at hh
    subst hh
    exact hc
  | cons pe rest ih =>
    intro h hh
    simp only [chainFrom, List.mem_cons] at hh
    simp only [populateLoop]
    rcases hh with rfl | hh
    · exact populateLoop_mono H rest _ _ h (lookup_cons_ne_none _ _ _ _ hc)
    · exact ih _ _ (by rw [lookup_cons_self]; simp) h (by simpa [combine] using hh)

lemma populate_registers (H : Hasher) (a : String) (v : Int) (p : List String)
    (s : RState) :
    ∀ h ∈ chainHashes H a v p,
      List.lookup h (populate H a v p s).hash_to_address ≠ none := by
  unfold populate chainHashes
  exact populateLoop_registers H p _ _ (by rw [lookup_cons_self]; simp)

lemma processAll_registers (H : Hasher) (es : List ProofEntry) (s : RState) :
    ∀ e ∈ es, ∀ h ∈ chainHashes H e.address e.amount e.proof,
      List.lookup h (processAll H es s).hash_to_address ≠ none := by
  induction es generalizing s with
  | nil => intro e he; cases he
  | cons e' es ih =>
    intro e he h hh
    simp only [processAll]
    rcases List.mem_cons.mp he with rfl | he
    · exact processAll_mono H es _ h (populate_registers H _ _ _ s h hh)
    · exact ih _ e he h hh

/-- C4: the populate phase is a total function that never consults the
declared root: for every input, every hash derived along every proof's
accumulation chain (the leaf hash and each accumulated parent) is recorded in
`hash_to_address`, whether or not any chain's final hash equals `input.root`;
no error is raised during reconstruction. -/
theorem C4_populate_never_rejects (H : Hasher) (input : InputData) (e : ProofEntry)
    (he : e ∈ input.proofs) (h : String)
    (hh : h ∈ chainHashes H e.address e.amount e.proof) :
    List.lookup h (processAll H input.proofs emptyState).hash_to_address ≠ none :=
  processAll_registers H input.proofs emptyState e he h hh

/-! ## Concrete two-leaf scenario (claims C8 and others) -/

/-- Leaf hash of `("0xa", 100)` under the toy hasher. -/
def hashA : String := toyHasher.keccak_leaf "0xa" 100

/-- Leaf hash of `("0xb", 200)` under the toy hasher. -/
def hashB : String := toyHasher.keccak_leaf "0xb" 200

/-- Canonically ordered parent of the two toy leaf hashes. -/
def rootAB : String := combine toyHasher hashA hashB

/-- The two-leaf input of the C8 scenario: each proof is the other's leaf hash,
the declared root is the canonically ordered parent. -/
def inputAB : InputData :=
  ⟨rootAB, some 300, [⟨"0xa", 100, [hashB]⟩, ⟨"0xb", 200, [hashA]⟩]⟩

/-- C4, witness: in the two-leaf scenario the root hash `rootAB` is derived on
the first entry's chain and is indeed registered. -/
theorem C4_witness :
    (⟨"0xa", 100, [hashB]⟩ : ProofEntry) ∈ inputAB.proofs ∧
    rootAB ∈ chainHashes toyHasher "0xa" 100 [hashB] ∧
    List.lookup rootAB
      (processAll toyHasher inputAB.proofs emptyState).hash_to_address ≠ none :=
  ⟨by decide, by decide,
    C4_populate_never_rejects toyHasher inputAB ⟨"0xa", 100, [hashB]⟩ (by decide)
      rootAB (by decide)⟩

/-! ## Determinism and idempotence of the whole run (claim C9) -/

lemma lookup_self_append {α β : Type} [BEq α] (l : List (α × β)) (k : α) :
    List.lookup k (l ++ l) = List.lookup k l := by
  cases h : List.lookup k l with
  | some v => exact lookup_append_some l l k v h
  | none => rw [lookup_append_none l l k h, h]

lemma walk_congr (s1 s2 : RState) (hEq : lookEq s1 s2) :
    ∀ fuel h acc, walk s1 fuel h acc = walk s2 fuel h acc := by
  intro fuel
  induction fuel with
  | zero => intro h acc; rfl
  | succ fuel ih =>
    intro h acc
    obtain ⟨hA, hV, hL, hR⟩ := hEq
    simp only [walk, hA, hV, hL, hR, ih]

lemma lookEq_processAll_twice (H : Hasher) (es : List ProofEntry) :
    lookEq (processAll H es (processAll H es emptyState))
      (processAll H es emptyState) := by
  refine ⟨fun k => ?_, fun k => ?_, fun k => ?_, fun k => ?_⟩ <;>
    rw [processAll_append H es (processAll H es emptyState)] <;>
    exact lookup_self_append _ _

/-- C9: the emitted certificate is a deterministic function of the parsed
input (the run is a pure function of `InputData` and the recursion budget),
and performing the populate phase twice over the same proof set before walking
yields exactly the same certificate as performing it once. -/
theorem C9_run_deterministic_idempotent (H : Hasher) (fuel : Nat)
    (input : InputData) : runTwice H fuel input = run H fuel input := by
  cases htot : input.total with
  | none => simp [runTwice, run, htot]
  | some t =>
    simp only [runTwice, run, htot]
    rw [walk_congr _ _ (lookEq_processAll_twice H input.proofs)]

/-! ## Topological soundness of the emitted certificate (claim C1) -/

lemma mem_addrs_mono (a : String) (l l' : List LeafRecord) (n n' : List NodeRecord)
    (hl : ∃ d, l' = l ++ d) (hn : ∃ d, n' = n ++ d)
    (h : a ∈ leafAddrs l ++ nodeAddrs n) : a ∈ leafAddrs l' ++ nodeAddrs n' := by
  obtain ⟨dl, rfl⟩ := hl
  obtain ⟨dn, rfl⟩ := hn
  simp only [leafAddrs, nodeAddrs, List.map_append, List.mem_append] at h ⊢
  tauto

lemma topoSound_append_leaf (l dl : List LeafRecord) (n : List NodeRecord)
    (h : TopoSound l n) : TopoSound (l ++ dl) n := by
  intro i hi
  obtain ⟨h1, h2⟩ := h i hi
  exact ⟨mem_addrs_mono _ _ _ _ _ ⟨dl, rfl⟩ ⟨[], by simp⟩ h1,
    mem_addrs_mono _ _ _ _ _ ⟨dl, rfl⟩ ⟨[], by simp⟩ h2⟩

lemma topoSound_append_node (l : List LeafRecord) (n : List NodeRecord)
    (x : NodeRecord) (h : TopoSound l n)
    (hl : x.left ∈ leafAddrs l ++ nodeAddrs n)
    (hr : x.right ∈ leafAddrs l ++ nodeAddrs n) :
    TopoSound l (n ++ [x]) := by
  intro i hi
  rcases Nat.lt_or_ge i n.length with hlt | hge
  · obtain ⟨h1, h2⟩ := h i hlt
    have hget : (n ++ [x]).get ⟨i, hi⟩ = n.get ⟨i, hlt⟩ := by
      simp [List.getElem_append_left hlt]
    have htake : (n ++ [x]).take i = n.take i :=
      List.take_append_of_le_length (le_of_lt hlt)
    rw [hget, htake]
    exact ⟨h1, h2⟩
  · have hlen : i = n.length := by
      have : i < n.length + 1 := by simpa using hi
      omega
    subst hlen
    have hget : (n ++ [x]).get ⟨n.length, hi⟩ = x := by simp
    have htake : (n ++ [x]).take n.length = n := by
      rw [List.take_append_of_le_length (le_refl _), List.take_length]
    rw [hget, htake]
    exact ⟨hl, hr⟩

lemma walk_topo (s : RState) :
    ∀ fuel h l n l' n', TopoSound l n →
      walk s fuel h (l, n) = .ok (l', n') →
      (∃ dl, l' = l ++ dl) ∧ (∃ dn, n' = n ++ dn) ∧ TopoSound l' n' ∧
      ∃ a, List.lookup h s.hash_to_address = some a ∧
        a ∈ leafAddrs l' ++ nodeAddrs n' := by
  intro fuel
  induction fuel with
  | zero =>
    intro h l n l' n' _ hw
    exact absurd hw (by simp [walk])
  | succ fuel ih =>
    intro h l n l' n' htopo hw
    simp only [walk] at hw
    split at hw
    case _ lh hL =>
      split at hw
      case _ e hw1 => cases hw
      case _ acc1 hw1 =>
        obtain ⟨l1, n1⟩ := acc1
        obtain ⟨⟨dl1, rfl⟩, ⟨dn1, rfl⟩, htopo1, al, hAl, hmemal⟩ :=
          ih lh l n l1 n1 htopo hw1
        split at hw
        case _ hR => cases hw
        case _ rh hR =>
          split at hw
          case _ e hw2 => cases hw
          case _ acc2 hw2 =>
            obtain ⟨l2, n2⟩ := acc2
            obtain ⟨⟨dl2, rfl⟩, ⟨dn2, rfl⟩, htopo2, ar, hAr, hmemar⟩ :=
              ih rh _ _ l2 n2 htopo1 hw2
            split at hw
            case _ hA => cases hw
            case _ a hA =>
              rw [hAl, hAr] at hw
              simp only [Except.ok.injEq, Prod.mk.injEq] at hw
              obtain ⟨rfl, rfl⟩ := hw
              refine ⟨⟨dl1 ++ dl2, by simp⟩, ⟨dn1 ++ dn2 ++ [⟨a, al, ar⟩], by simp⟩,
                ?_, a, hA, ?_⟩
              · refine topoSound_append_node _ _ _ htopo2 ?_ hmemar
                exact mem_addrs_mono _ _ _ _ _ ⟨dl2, rfl⟩ ⟨dn2, rfl⟩ hmemal
              · simp [leafAddrs, nodeAddrs]
    case _ hL =>
      split at hw
      case _ hA => cases hw
      case _ a hA =>
        split at hw
        case _ hV => cases hw
        case _ v hV =>
          simp only [Except.ok.injEq, Prod.mk.injEq] at hw
          obtain ⟨rfl, rfl⟩ := hw
          refine ⟨⟨[⟨a, v⟩], rfl⟩, ⟨[], by simp⟩,
            topoSound_append_leaf _ _ _ htopo, a, hA, ?_⟩
          simp [leafAddrs, nodeAddrs]

lemma topoSound_nil : TopoSound [] [] := by
  intro i hi
  simp at hi

/-- C1: every certificate produced by a run (populate over all proofs, then
walk from the declared root) is topologically sound: each node record's `left`
and `right` identifiers already occur as the `addr` of a leaf record (all of
which precede the node list in the output) or of an earlier node record. -/
theorem C1_topological_order (H : Hasher) (fuel : Nat) (input : InputData)
    (cert : Cert) (h : run H fuel input = .ok cert) :
    TopoSound cert.leaf cert.node := by
  unfold run at h
  split at h
  case _ => cases h
  case _ t htot =>
    split at h
    case _ e hww => cases h
    case _ acc hww =>
      obtain ⟨lf, nd⟩ := acc
      obtain ⟨_, _, htopo, _⟩ :=
        walk_topo (processAll H input.proofs emptyState) fuel input.root
          [] [] lf nd topoSound_nil hww
      cases h
      exact htopo

/-- The certificate of the two-leaf scenario `inputAB`. -/
def certAB : Cert :=
  ⟨rootAB, 300, [⟨"0xa", 100⟩, ⟨"0xb", 200⟩],
    [⟨strTake (toyHasher.keccak_node rootAB rootAB) 42, "0xa", "0xb"⟩], 2, 1⟩

/-- C1, witness: the two-leaf scenario run succeeds and its certificate is
topologically sound. -/
theorem C1_witness : TopoSound certAB.leaf certAB.node :=
  C1_topological_order toyHasher 3 inputAB certAB (by rfl)

/-! ## Successful emission requires registration of every reachable hash (C7) -/

lemma walk_ok_inv_node (s : RState) (fuel : Nat) (h : String)
    (acc res : List LeafRecord × List NodeRecord) (lh : String)
    (hL : List.lookup h s.left = some lh)
    (hw : walk s (Nat.succ fuel) h acc = .ok res) :
    ∃ acc1 rh acc2, walk s fuel lh acc = .ok acc1 ∧
      List.lookup h s.right = some rh ∧ walk s fuel rh acc1 = .ok acc2 ∧
      List.lookup h s.hash_to_address ≠ none := by
  simp only [walk, hL] at hw
  split at hw
  case _ e hw1 => cases hw
  case _ acc1 hw1 =>
    split at hw
    case _ hR => cases hw
    case _ rh hR =>
      split at hw
      case _ e hw2 => cases hw
      case _ acc2 hw2 =>
        split at hw
        case _ hA => cases hw
        case _ a hA => exact ⟨acc1, rh, acc2, hw1, hR, hw2, by simp [hA]⟩

lemma walk_ok_inv_leaf (s : RState) (fuel : Nat) (h : String)
    (acc res : List LeafRecord × List NodeRecord)
    (hL : List.lookup h s.left = none)
    (hw : walk s (Nat.succ fuel) h acc = .ok res) :
    List.lookup h s.hash_to_address ≠ none := by
  simp only [walk, hL] at hw
  split at hw
  case _ hA => cases hw
  case _ a hA => simp [hA]

lemma walk_ok_addr (s : RState) (fuel : Nat) (h : String)
    (acc res : List LeafRecord × List NodeRecord)
    (hw : walk s fuel h acc = .ok res) :
    List.lookup h s.hash_to_address ≠ none := by
  cases fuel with
  | zero => simp [walk] at hw
  | succ fuel =>
    cases hL : List.lookup h s.left with
    | some lh =>
      obtain ⟨_, _, _, _, _, _, hA⟩ := walk_ok_inv_node s fuel h acc res lh hL hw
      exact hA
    | none => exact walk_ok_inv_leaf s fuel h acc res hL hw

lemma reach_registered (s : RState) (h h' : String) (hr : Reach s h h') :
    (∃ fuel acc res, walk s fuel h acc = .ok res) →
    List.lookup h' s.hash_to_address ≠ none := by
  induction hr with
  | refl h0 =>
    rintro ⟨fuel, acc, res, hw⟩
    exact walk_ok_addr s fuel h0 acc res hw
  | viaLeft hL hreach ih =>
    rintro ⟨fuel, acc, res, hw⟩
    apply ih
    cases fuel with
    | zero => simp [walk] at hw
    | succ fuel =>
      obtain ⟨acc1, rh, acc2, hwl, _, _, _⟩ := walk_ok_inv_node s fuel _ acc res _ hL hw
      exact ⟨fuel, acc, acc1, hwl⟩
  | viaRight hex hR hreach ih =>
    rintro ⟨fuel, acc, res, hw⟩
    apply ih
    obtain ⟨l0, hL⟩ := hex
    cases fuel with
    | zero => simp [walk] at hw
    | succ fuel =>
      obtain ⟨acc1, rh, acc2, _, hR', hwr, _⟩ := walk_ok_inv_node s fuel _ acc res _ hL hw
      have hrr : rh = _ := Option.some.inj (hR'.symm.trans hR)
      subst hrr
      exact ⟨fuel, acc1, acc2, hwr⟩

/-- C7: if the walk completes successfully, then every hash reachable from the
starting hash through the recorded `left`/`right` child dictionaries is
registered in `hash_to_address`; contrapositively, when the declared root or
any hash reachable from it is unregistered, the walk cannot produce a
certificate and aborts with a lookup failure (a `KeyError`, or a
`RecursionError` when a cycle intervenes first). -/
theorem C7_emission_requires_registration (s : RState) (fuel : Nat)
    (h h' : String) (acc res : List LeafRecord × List NodeRecord)
    (hw : walk s fuel h acc = .ok res) (hr : Reach s h h') :
    List.lookup h' s.hash_to_address ≠ none :=
  reach_registered s h h' hr ⟨fuel, acc, res, hw⟩

/-- C7, witness: in the two-leaf scenario the walk succeeds and the left child
of the root (reached through the `left` dictionary) is registered. -/
theorem C7_witness :
    List.lookup hashA
      (processAll toyHasher inputAB.proofs emptyState).hash_to_address ≠ none :=
  C7_emission_requires_registration
    (processAll toyHasher inputAB.proofs emptyState) 3 rootAB hashA ([], [])
    (certAB.leaf, certAB.node) (by rfl)
    (Reach.viaLeft (by decide) (Reach.refl hashA))

/-! ## The two-leaf scenario (claim C8) -/

/-- C8: for any hasher and addresses, the input with leaves `(a1, 100)` and
`(a2, 200)`, each proof consisting solely of the other leaf's hash, and
declared root `R` the canonically ordered parent of the two leaf hashes,
produces (provided the three involved hashes are pairwise distinct) a
certificate with `leafLength = 2`, `nodeLength = 1`, whose single node record
carries the two leaves' address fields as `left`/`right` (in canonical hash
order) and whose own `addr` is the identifier derived from `R` by truncating
`keccak_node R R` to 42 characters. -/
theorem C8_two_leaf_certificate (H : Hasher) (a1 a2 hA hB R : String)
    (hhA : hA = H.keccak_leaf a1 100) (hhB : hB = H.keccak_leaf a2 200)
    (hhR : R = combine H hA hB)
    (hAB : hA ≠ hB) (hRA : R ≠ hA) (hRB : R ≠ hB) :
    (strLe hA hB = true →
      run H 3 ⟨R, some 300, [⟨a1, 100, [hB]⟩, ⟨a2, 200, [hA]⟩]⟩ =
        .ok ⟨R, 300, [⟨a1, 100⟩, ⟨a2, 200⟩],
          [⟨strTake (H.keccak_node R R) 42, a1, a2⟩], 2, 1⟩) ∧
    (strLe hA hB = false →
      run H 3 ⟨R, some 300, [⟨a1, 100, [hB]⟩, ⟨a2, 200, [hA]⟩]⟩ =
        .ok ⟨R, 300, [⟨a2, 200⟩, ⟨a1, 100⟩],
          [⟨strTake (H.keccak_node R R) 42, a2, a1⟩], 2, 1⟩) := by
  have eAB : (hA == hB) = false := beq_eq_false_iff_ne.mpr hAB
  have eBA : (hB == hA) = false := beq_eq_false_iff_ne.mpr (Ne.symm hAB)
  have eAR : (hA == R) = false := beq_eq_false_iff_ne.mpr (Ne.symm hRA)
  have eBR : (hB == R) = false := beq_eq_false_iff_ne.mpr (Ne.symm hRB)
  constructor
  · intro hle
    have hba : strLe hB hA = false := by
      cases h : strLe hB hA with
      | false => rfl
      | true => exact absurd (strLe_antisymm hA hB hle h) hAB
    have hcomb : combine H hA hB = H.keccak_node hA hB := by
      simp [combine, sortPair, hle]
    have hR' : H.keccak_node hA hB = R := by rw [hhR, hcomb]
    rw [show (3 : Nat) = Nat.succ (Nat.succ (Nat.succ 0)) from rfl]
    simp only [run, processAll, populate, populateLoop, walk, List.lookup,
      sortPair, ← hhA, ← hhB, hle, hba, emptyState, eAB, eBA, eAR, eBR,
      beq_self_eq_true, hR', if_true, if_false, Bool.false_eq_true,
      ite_true, ite_false]
    simp
  · intro hle
    have hba : strLe hB hA = true := strLe_of_not hA hB hle
    have hcomb : combine H hA hB = H.keccak_node hB hA := by
      simp [combine, sortPair, hle]
    have hR' : H.keccak_node hB hA = R := by rw [hhR, hcomb]
    rw [show (3 : Nat) = Nat.succ (Nat.succ (Nat.succ 0)) from rfl]
    simp only [run, processAll, populate, populateLoop, walk, List.lookup,
      sortPair, ← hhA, ← hhB, hle, hba, emptyState, eAB, eBA, eAR, eBR,
      beq_self_eq_true, hR', if_true, if_false, Bool.false_eq_true,
      ite_true, ite_false]
    simp

/-- C8, witness: the toy-hasher instantiation of the two-leaf scenario,
evaluated concretely. -/
theorem C8_witness : run toyHasher 3 inputAB = .ok certAB :=
  (C8_two_leaf_certificate toyHasher "0xa" "0xb" hashA hashB rootAB rfl rfl rfl
    (by decide) (by decide) (by decide)).1 (by decide)

/-! ## Revisiting and duplicate emission (claim C2) -/

/-- Root of the degenerate input whose second leaf's proof lists `hashB`
twice, making `hashB` a child of two distinct reachable internal nodes. -/
def rootDup : String := combine toyHasher rootAB hashB

/-- Degenerate input: leaf `("0xb", 200)` with an empty proof, and leaf
`("0xa", 100)` whose proof path is `[hashB, hashB]`. -/
def inputDup : InputData :=
  ⟨rootDup, some 300, [⟨"0xb", 200, []⟩, ⟨"0xa", 100, [hashB, hashB]⟩]⟩

/-- Certificate actually produced on `inputDup`: the hash `hashB` is emitted
as a leaf record twice. -/
def certDup : Cert :=
  ⟨rootDup, 300, [⟨"0xb", 200⟩, ⟨"0xa", 100⟩, ⟨"0xb", 200⟩],
    [⟨strTake (toyHasher.keccak_node rootAB rootAB) 42, "0xa", "0xb"⟩,
     ⟨strTake (toyHasher.keccak_node rootDup rootDup) 42, "0xb",
       strTake (toyHasher.keccak_node rootAB rootAB) 42⟩], 3, 2⟩

/-- C2, counterexample: a registry built by `populate` and a starting root on
which the walk emits the same distinct hash (`hashB`, the registered leaf hash
of `("0xb", 200)`) as two separate leaf records, because `walk` keeps no
visited set and `hashB` is reachable along two paths. -/
theorem C2_counterexample :
    run toyHasher 5 inputDup = .ok certDup ∧
    (certDup.leaf.filter (fun lr => lr.addr == "0xb")).length = 2 ∧
    List.lookup hashB
      (processAll toyHasher inputDup.proofs emptyState).hash_to_address =
      some "0xb" :=
  ⟨by rfl, by rfl, by rfl⟩

/-- Leaf hash of `("0xc", 300)` under the toy hasher. -/
def hashC : String := toyHasher.keccak_leaf "0xc" 300

/-- Root of the three-leaf tree in which leaves `A` and `B` are siblings
sharing the ancestor prefix `[rootAB, rootShared]`. -/
def rootShared : String := combine toyHasher rootAB hashC

/-- Tree-shaped input: sibling leaves `A` and `B` whose proof paths share the
common ancestor prefix, plus leaf `C` covering the remaining subtree. -/
def inputShared : InputData :=
  ⟨rootShared, some 600,
    [⟨"0xa", 100, [hashB, hashC]⟩, ⟨"0xb", 200, [hashA, hashC]⟩,
     ⟨"0xc", 300, [rootAB]⟩]⟩

/-- Certificate produced on `inputShared`: each distinct hash appears exactly
once; in particular the shared ancestor `rootAB` has a single node record. -/
def certShared : Cert :=
  ⟨rootShared, 600, [⟨"0xc", 300⟩, ⟨"0xa", 100⟩, ⟨"0xb", 200⟩],
    [⟨strTake (toyHasher.keccak_node rootAB rootAB) 42, "0xa", "0xb"⟩,
     ⟨strTake (toyHasher.keccak_node rootShared rootShared) 42, "0xc",
       strTake (toyHasher.keccak_node rootAB rootAB) 42⟩], 3, 2⟩

/-- The sequence of hashes the walk visits, in emission order: a hash-level
mirror of `walk` with exactly the same lookup and error structure, recording
the visited hash wherever `walk` appends a record. -/
def walkVisits (s : RState) : Nat → String → Except RunError (List String)
  | 0, _ => .error .recLimit
  | Nat.succ fuel, h =>
    match List.lookup h s.left with
    | some lh =>
      match walkVisits s fuel lh with
      | .error e => .error e
      | .ok vs1 =>
        match List.lookup h s.right with
        | none => .error (.keyErr h)
        | some rh =>
          match walkVisits s fuel rh with
          | .error e => .error e
          | .ok vs2 =>
            match List.lookup h s.hash_to_address with
            | none => .error (.keyErr h)
            | some _ =>
              match List.lookup lh s.hash_to_address with
              | none => .error (.keyErr lh)
              | some _ =>
                match List.lookup rh s.hash_to_address with
                | none => .error (.keyErr rh)
                | some _ => .ok (vs1 ++ vs2 ++ [h])
    | none =>
      match List.lookup h s.hash_to_address with
      | none => .error (.keyErr h)
      | some _ =>
        match List.lookup h s.hash_to_value with
        | none => .error (.keyErr h)
        | some _ => .ok [h]

/-- The leaf record a visit of `x` appends, when `x` is a leaf. -/
def leafRecOf (s : RState) (x : String) : Option LeafRecord :=
  match List.lookup x s.left with
  | some _ => none
  | none =>
    match List.lookup x s.hash_to_address, List.lookup x s.hash_to_value with
    | some a, some v => some ⟨a, v⟩
    | _, _ => none

/-- The node record a visit of `x` appends, when `x` is an internal node. -/
def nodeRecOf (s : RState) (x : String) : Option NodeRecord :=
  match List.lookup x s.left with
  | none => none
  | some lh =>
    match List.lookup x s.right with
    | none => none
    | some rh =>
      match List.lookup x s.hash_to_address, List.lookup lh s.hash_to_address,
          List.lookup rh s.hash_to_address with
      | some a, some al, some ar => some ⟨a, al, ar⟩
      | _, _, _ => none

/-- Unique-arrival-path condition on the child graph reachable from `root`:
at every reachable internal node the two child subtrees are disjoint and
neither contains the node itself, so every reachable hash is reached along
exactly one path.  This holds whenever the proof set reconstructs a
consistent Merkle tree. -/
def TreeLike (s : RState) (root : String) : Prop :=
  ∀ h lh rh, Reach s root h → List.lookup h s.left = some lh →
    List.lookup h s.right = some rh →
    (∀ x, Reach s lh x → Reach s rh x → False) ∧
    ¬ Reach s lh h ∧ ¬ Reach s rh h

lemma reach_trans (s : RState) (a b c : String) (h1 : Reach s a b)
    (h2 : Reach s b c) : Reach s a c := by
  induction h1 with
  | refl _ => exact h2
  | viaLeft hL _ ih => exact Reach.viaLeft hL (ih h2)
  | viaRight hex hR _ ih => exact Reach.viaRight hex hR (ih h2)

lemma walkVisits_ok_inv_node (s : RState) (fuel : Nat) (h : String)
    (vs : List String) (lh : String) (hL : List.lookup h s.left = some lh)
    (hv : walkVisits s (Nat.succ fuel) h = .ok vs) :
    ∃ vs1 rh vs2, walkVisits s fuel lh = .ok vs1 ∧
      List.lookup h s.right = some rh ∧ walkVisits s fuel rh = .ok vs2 ∧
      vs = vs1 ++ vs2 ++ [h] := by
  simp only [walkVisits, hL] at hv
  split at hv
  case _ e hv1 => cases hv
  case _ vs1 hv1 =>
    split at hv
    case _ hR => cases hv
    case _ rh hR =>
      split at hv
      case _ e hv2 => cases hv
      case _ vs2 hv2 =>
        split at hv
        case _ hA => cases hv
        case _ a hA =>
          split at hv
          case _ hAl => cases hv
          case _ al hAl =>
            split at hv
            case _ hAr => cases hv
            case _ ar hAr =>
              exact ⟨vs1, rh, vs2, hv1, hR, hv2, (Except.ok.inj hv).symm⟩

lemma walkVisits_ok_inv_leaf (s : RState) (fuel : Nat) (h : String)
    (vs : List String) (hL : List.lookup h s.left = none)
    (hv : walkVisits s (Nat.succ fuel) h = .ok vs) : vs = [h] := by
  simp only [walkVisits, hL] at hv
  split at hv
  case _ hA => cases hv
  case _ a hA =>
    split at hv
    case _ hV => cases hv
    case _ v hV => exact (Except.ok.inj hv).symm

lemma walkVisits_self_mem (s : RState) (fuel : Nat) (h : String)
    (vs : List String) (hv : walkVisits s fuel h = .ok vs) : h ∈ vs := by
  cases fuel with
  | zero => simp [walkVisits] at hv
  | succ fuel =>
    cases hL : List.lookup h s.left with
    | some lh =>
      obtain ⟨vs1, rh, vs2, _, _, _, rfl⟩ :=
        walkVisits_ok_inv_node s fuel h vs lh hL hv
      simp
    | none =>
      rw [walkVisits_ok_inv_leaf s fuel h vs hL hv]
      simp

lemma visits_reach (s : RState) :
    ∀ fuel h vs, walkVisits s fuel h = .ok vs → ∀ x ∈ vs, Reach s h x := by
  intro fuel
  induction fuel with
  | zero => intro h vs hv; simp [walkVisits] at hv
  | succ fuel ih =>
    intro h vs hv x hx
    cases hL : List.lookup h s.left with
    | some lh =>
      obtain ⟨vs1, rh, vs2, hv1, hR, hv2, rfl⟩ :=
        walkVisits_ok_inv_node s fuel h vs lh hL hv
      rcases List.mem_append.mp hx with hx | hx
      · rcases List.mem_append.mp hx with hx | hx
        · exact Reach.viaLeft hL (ih lh vs1 hv1 x hx)
        · exact Reach.viaRight ⟨lh, hL⟩ hR (ih rh vs2 hv2 x hx)
      · rw [List.mem_singleton.mp hx]
        exact Reach.refl h
    | none =>
      rw [walkVisits_ok_inv_leaf s fuel h vs hL hv] at hx
      rw [List.mem_singleton.mp hx]
      exact Reach.refl h

lemma reach_visits (s : RState) (h x : String) (hr : Reach s h x) :
    ∀ fuel vs, walkVisits s fuel h = .ok vs → x ∈ vs := by
  induction hr with
  | refl h0 =>
    intro fuel vs hv
    exact walkVisits_self_mem s fuel h0 vs hv
  | viaLeft hL _ ih =>
    intro fuel vs hv
    cases fuel with
    | zero => simp [walkVisits] at hv
    | succ fuel =>
      obtain ⟨vs1, rh, vs2, hv1, _, _, rfl⟩ :=
        walkVisits_ok_inv_node s fuel _ vs _ hL hv
      have := ih fuel vs1 hv1
      simp only [List.mem_append]
      tauto
  | viaRight hex hR _ ih =>
    intro fuel vs hv
    obtain ⟨l0, hL⟩ := hex
    cases fuel with
    | zero => simp [walkVisits] at hv
    | succ fuel =>
      obtain ⟨vs1, rh, vs2, _, hR', hv2, rfl⟩ :=
        walkVisits_ok_inv_node s fuel _ vs _ hL hv
      have hrr : rh = _ := Option.some.inj (hR'.symm.trans hR)
      subst hrr
      have := ih fuel vs2 hv2
      simp only [List.mem_append]
      tauto

lemma visits_nodup (s : RState) (root : String) (ht : TreeLike s root) :
    ∀ fuel h vs, Reach s root h → walkVisits s fuel h = .ok vs → vs.Nodup := by
  intro fuel
  induction fuel with
  | zero => intro h vs _ hv; simp [walkVisits] at hv
  | succ fuel ih =>
    intro h vs hroot hv
    cases hL : List.lookup h s.left with
    | none =>
      rw [walkVisits_ok_inv_leaf s fuel h vs hL hv]
      simp
    | some lh =>
      obtain ⟨vs1, rh, vs2, hv1, hR, hv2, rfl⟩ :=
        walkVisits_ok_inv_node s fuel h vs lh hL hv
      obtain ⟨hdisj, hnl, hnr⟩ := ht h lh rh hroot hL hR
      have hreachL : Reach s root lh :=
        reach_trans s root h lh hroot (Reach.viaLeft hL (Reach.refl lh))
      have hreachR : Reach s root rh :=
        reach_trans s root h rh hroot (Reach.viaRight ⟨lh, hL⟩ hR (Reach.refl rh))
      have hsub1 : ∀ x ∈ vs1, Reach s lh x := visits_reach s fuel lh vs1 hv1
      have hsub2 : ∀ x ∈ vs2, Reach s rh x := visits_reach s fuel rh vs2 hv2
      rw [List.nodup_append, List.nodup_append]
      refine ⟨⟨ih lh vs1 hreachL hv1, ih rh vs2 hreachR hv2, ?_⟩, by simp, ?_⟩
      · intro x hx1 hx2
        exact hdisj x (hsub1 x hx1) (hsub2 x hx2)
      · intro x hx hxh
        rw [List.mem_singleton.mp hxh] at hx
        rcases List.mem_append.mp hx with hx | hx
        · exact hnl (hsub1 h hx)
        · exact hnr (hsub2 h hx)

lemma walk_eq_visits (s : RState) :
    ∀ fuel h l n l' n', walk s fuel h (l, n) = .ok (l', n') →
      ∃ vs, walkVisits s fuel h = .ok vs ∧
        l' = l ++ vs.filterMap (leafRecOf s) ∧
        n' = n ++ vs.filterMap (nodeRecOf s) := by
  intro fuel
  induction fuel with
  | zero =>
    intro h l n l' n' hw
    exact absurd hw (by simp [walk])
  | succ fuel ih =>
    intro h l n l' n' hw
    simp only [walk] at hw
    split at hw
    case _ lh hL =>
      split at hw
      case _ e hw1 => cases hw
      case _ acc1 hw1 =>
        obtain ⟨l1, n1⟩ := acc1
        obtain ⟨vs1, hv1, rfl, rfl⟩ := ih lh l n l1 n1 hw1
        split at hw
        case _ hR => cases hw
        case _ rh hR =>
          split at hw
          case _ e hw2 => cases hw
          case _ acc2 hw2 =>
            obtain ⟨l2, n2⟩ := acc2
            obtain ⟨vs2, hv2, rfl, rfl⟩ := ih rh _ _ l2 n2 hw2
            split at hw
            case _ hA => cases hw
            case _ a hA =>
              split at hw
              case _ hAl => cases hw
              case _ al hAl =>
                split at hw
                case _ hAr => cases hw
                case _ ar hAr =>
                  simp only [Except.ok.injEq, Prod.mk.injEq] at hw
                  obtain ⟨rfl, rfl⟩ := hw
                  refine ⟨vs1 ++ vs2 ++ [h], ?_, ?_, ?_⟩
                  · simp only [walkVisits, hL, hv1, hR, hv2, hA, hAl, hAr]
                  · have hn : leafRecOf s h = none := by
                      simp [leafRecOf, hL]
                    simp [List.filterMap_append, hn, List.append_assoc]
                  · have hr : nodeRecOf s h = some ⟨a, al, ar⟩ := by
                      simp [nodeRecOf, hL, hR, hA, hAl, hAr]
                    simp [List.filterMap_append, hr, List.append_assoc]
    case _ hL =>
      split at hw
      case _ hA => cases hw
      case _ a hA =>
        split at hw
        case _ hV => cases hw
        case _ v hV =>
          simp only [Except.ok.injEq, Prod.mk.injEq] at hw
          obtain ⟨rfl, rfl⟩ := hw
          refine ⟨[h], ?_, ?_, ?_⟩
          · simp only [walkVisits, hL, hA, hV]
          · have hlr : leafRecOf s h = some ⟨a, v⟩ := by
              simp [leafRecOf, hL, hA, hV]
            simp [hlr]
          · have hnr : nodeRecOf s h = none := by
              simp [nodeRecOf, hL]
            simp [hnr]

/-- C2, amended: the walk does not deduplicate visits, but whenever every hash
reachable from the starting root has a unique arrival path through the
recorded child maps (`TreeLike`, the situation of a consistent Merkle tree),
a successful walk visits each distinct reachable HashNode exactly once — the
visit sequence is duplicate-free and contains exactly the reachable hashes —
and the emitted certificate carries exactly one record per visit, so no hash
is emitted as more than one record; in particular the shared ancestor of two
leaves whose proof paths share a common ancestor prefix receives exactly one
node record. -/
theorem C2_each_node_emitted_once_when_tree (s : RState) (fuel : Nat)
    (root : String) (l l' : List LeafRecord) (m m' : List NodeRecord)
    (vs : List String)
    (hw : walk s fuel root (l, m) = .ok (l', m'))
    (hv : walkVisits s fuel root = .ok vs)
    (ht : TreeLike s root) :
    vs.Nodup ∧ (∀ x, x ∈ vs ↔ Reach s root x) ∧
    l' = l ++ vs.filterMap (leafRecOf s) ∧
    m' = m ++ vs.filterMap (nodeRecOf s) := by
  obtain ⟨vs', hv', hll, hnn⟩ := walk_eq_visits s fuel root l m l' m' hw
  have hvv : vs' = vs := Except.ok.inj (hv'.symm.trans hv)
  subst hvv
  refine ⟨visits_nodup s root ht fuel root vs' (Reach.refl root) hv,
    fun x => ⟨visits_reach s fuel root vs' hv x,
      fun hr => reach_visits s root x hr fuel vs' hv⟩, hll, hnn⟩

/-- The registry state reconstructed from `inputShared`. -/
def sharedState : RState := processAll toyHasher inputShared.proofs emptyState

lemma lookup_cons_of_ne {α β : Type} [BEq α] [LawfulBEq α] (k k' : α) (v : β)
    (lst : List (α × β)) (h : k ≠ k') :
    List.lookup k ((k', v) :: lst) = List.lookup k lst := by
  simp only [List.lookup]
  rw [beq_eq_false_iff_ne.mpr h]

lemma sharedState_lookup_left (x l : String)
    (h : List.lookup x sharedState.left = some l) :
    (x = rootShared ∧ l = hashC) ∨ (x = rootAB ∧ l = hashA) := by
  by_cases h1 : x = rootShared
  · subst h1
    rw [show List.lookup rootShared sharedState.left = some hashC from rfl] at h
    exact Or.inl ⟨rfl, (Option.some.inj h).symm⟩
  · by_cases h2 : x = rootAB
    · subst h2
      rw [show List.lookup rootAB sharedState.left = some hashA from rfl] at h
      exact Or.inr ⟨rfl, (Option.some.inj h).symm⟩
    · exfalso
      rw [show sharedState.left = [(rootShared, hashC), (rootShared, hashC),
        (rootAB, hashA), (rootShared, hashC), (rootAB, hashA)] from rfl] at h
      rw [lookup_cons_of_ne _ _ _ _ h1, lookup_cons_of_ne _ _ _ _ h1,
        lookup_cons_of_ne _ _ _ _ h2, lookup_cons_of_ne _ _ _ _ h1,
        lookup_cons_of_ne _ _ _ _ h2] at h
      simp [List.lookup] at h

lemma sharedState_lookup_right (x r : String)
    (h : List.lookup x sharedState.right = some r) :
    (x = rootShared ∧ r = rootAB) ∨ (x = rootAB ∧ r = hashB) := by
  by_cases h1 : x = rootShared
  · subst h1
    rw [show List.lookup rootShared sharedState.right = some rootAB from rfl] at h
    exact Or.inl ⟨rfl, (Option.some.inj h).symm⟩
  · by_cases h2 : x = rootAB
    · subst h2
      rw [show List.lookup rootAB sharedState.right = some hashB from rfl] at h
      exact Or.inr ⟨rfl, (Option.some.inj h).symm⟩
    · exfalso
      rw [show sharedState.right = [(rootShared, rootAB), (rootShared, rootAB),
        (rootAB, hashB), (rootShared, rootAB), (rootAB, hashB)] from rfl] at h
      rw [lookup_cons_of_ne _ _ _ _ h1, lookup_cons_of_ne _ _ _ _ h1,
        lookup_cons_of_ne _ _ _ _ h2, lookup_cons_of_ne _ _ _ _ h1,
        lookup_cons_of_ne _ _ _ _ h2] at h
      simp [List.lookup] at h

lemma sharedState_reach (x y : String) (h : Reach sharedState x y) :
    y = x ∨ (x = rootShared ∧ (y = hashC ∨ y = rootAB ∨ y = hashA ∨ y = hashB)) ∨
      (x = rootAB ∧ (y = hashA ∨ y = hashB)) := by
  induction h with
  | refl h0 => exact Or.inl rfl
  | viaLeft hL _ ih =>
    rcases sharedState_lookup_left _ _ hL with ⟨rfl, rfl⟩ | ⟨rfl, rfl⟩
    · rcases ih with rfl | ⟨he, _⟩ | ⟨he, _⟩
      · exact Or.inr (Or.inl ⟨rfl, Or.inl rfl⟩)
      · exact absurd he (by decide)
      · exact absurd he (by decide)
    · rcases ih with rfl | ⟨he, _⟩ | ⟨he, _⟩
      · exact Or.inr (Or.inr ⟨rfl, Or.inl rfl⟩)
      · exact absurd he (by decide)
      · exact absurd he (by decide)
  | viaRight hex hR _ ih =>
    rcases sharedState_lookup_right _ _ hR with ⟨rfl, rfl⟩ | ⟨rfl, rfl⟩
    · rcases ih with rfl | ⟨he, _⟩ | ⟨_, hy⟩
      · exact Or.inr (Or.inl ⟨rfl, Or.inr (Or.inl rfl)⟩)
      · exact absurd he (by decide)
      · exact Or.inr (Or.inl ⟨rfl, Or.inr (Or.inr hy)⟩)
    · rcases ih with rfl | ⟨he, _⟩ | ⟨he, _⟩
      · exact Or.inr (Or.inr ⟨rfl, Or.inr rfl⟩)
      · exact absurd he (by decide)
      · exact absurd he (by decide)

lemma sharedState_treeLike : TreeLike sharedState rootShared := by
  intro h lh rh _ hL hR
  rcases sharedState_lookup_left _ _ hL with ⟨rfl, rfl⟩ | ⟨rfl, rfl⟩
  · rcases sharedState_lookup_right _ _ hR with ⟨_, rfl⟩ | ⟨he, _⟩
    · refine ⟨?_, ?_, ?_⟩
      · intro x hxl hxr
        rcases sharedState_reach _ _ hxl with rfl | ⟨he, _⟩ | ⟨he, _⟩
        · rcases sharedState_reach _ _ hxr with he2 | ⟨he2, _⟩ | ⟨_, hy⟩
          · exact absurd he2 (by decide)
          · exact absurd he2 (by decide)
          · rcases hy with he2 | he2
            · exact absurd he2 (by decide)
            · exact absurd he2 (by decide)
        · exact absurd he (by decide)
        · exact absurd he (by decide)
      · intro hc
        rcases sharedState_reach _ _ hc with he | ⟨he, _⟩ | ⟨he, _⟩
        · exact absurd he (by decide)
        · exact absurd he (by decide)
        · exact absurd he (by decide)
      · intro hc
        rcases sharedState_reach _ _ hc with he | ⟨he, _⟩ | ⟨_, hy⟩
        · exact absurd he (by decide)
        · exact absurd he (by decide)
        · rcases hy with he | he
          · exact absurd he (by decide)
          · exact absurd he (by decide)
    · exact absurd he (by decide)
  · rcases sharedState_lookup_right _ _ hR with ⟨he, _⟩ | ⟨_, rfl⟩
    · exact absurd he (by decide)
    · refine ⟨?_, ?_, ?_⟩
      · intro x hxl hxr
        rcases sharedState_reach _ _ hxl with rfl | ⟨he, _⟩ | ⟨he, _⟩
        · rcases sharedState_reach _ _ hxr with he2 | ⟨he2, _⟩ | ⟨he2, _⟩
          · exact absurd he2 (by decide)
          · exact absurd he2 (by decide)
          · exact absurd he2 (by decide)
        · exact absurd he (by decide)
        · exact absurd he (by decide)
      · intro hc
        rcases sharedState_reach _ _ hc with he | ⟨he, _⟩ | ⟨he, _⟩
        · exact absurd he (by decide)
        · exact absurd he (by decide)
        · exact absurd he (by decide)
      · intro hc
        rcases sharedState_reach _ _ hc with he | ⟨he, _⟩ | ⟨he, _⟩
        · exact absurd he (by decide)
        · exact absurd he (by decide)
        · exact absurd he (by decide)

/-- C2, witness: in the three-leaf shared-ancestor scenario the reachable
child graph is tree-like, the walk's visit sequence is duplicate-free, and the
certificate lists carry exactly one record per visit — in particular the
shared ancestor `rootAB` is visited once and yields the single corresponding
node record. -/
theorem C2_witness :
    ([hashC, hashA, hashB, rootAB, rootShared] : List String).Nodup ∧
    certShared.leaf =
      [] ++ ([hashC, hashA, hashB, rootAB, rootShared]).filterMap
        (leafRecOf sharedState) ∧
    certShared.node =
      [] ++ ([hashC, hashA, hashB, rootAB, rootShared]).filterMap
        (nodeRecOf sharedState) := by
  obtain ⟨h1, _, h3, h4⟩ :=
    C2_each_node_emitted_once_when_tree sharedState 5 rootShared []
      certShared.leaf [] certShared.node
      [hashC, hashA, hashB, rootAB, rootShared]
      (by rfl) (by rfl) sharedState_treeLike
  exact ⟨h1, h3, h4⟩

/-! ## Silent overwriting of registry entries (claim C3) -/

/-- Leaf hash of `("0xab", 100)`, shared by every casing of the address. -/
def hashABleaf : String := toyHasher.keccak_leaf "0xab" 100

/-- Input carrying the same account twice under two casings of its address,
which `to_checksum_address` normalizes to the same leaf hash. -/
def inputCase : InputData :=
  ⟨hashABleaf, some 200, [⟨"0xAB", 100, []⟩, ⟨"0xab", 100, []⟩]⟩

/-- C3, demonstration at the failing input: the two case-variant entries
derive the same hash key with two different address contents; the dictionary
silently keeps both writes (the lookup now answering the second), no error of
any kind is raised, and the run completes with a certificate that has dropped
the first entry entirely. -/
theorem C3_silent_overwrite_demo :
    toyHasher.keccak_leaf "0xAB" 100 = toyHasher.keccak_leaf "0xab" 100 ∧
    (hashABleaf, "0xAB") ∈
      (processAll toyHasher inputCase.proofs emptyState).hash_to_address ∧
    (hashABleaf, "0xab") ∈
      (processAll toyHasher inputCase.proofs emptyState).hash_to_address ∧
    ("0xAB" : String) ≠ "0xab" ∧
    List.lookup hashABleaf
      (processAll toyHasher inputCase.proofs emptyState).hash_to_address =
      some "0xab" ∧
    run toyHasher 2 inputCase = .ok ⟨hashABleaf, 200, [⟨"0xab", 100⟩], [], 1, 0⟩ :=
  ⟨by rfl, by decide, by decide, by decide, by rfl, by rfl⟩

/-! ## The `total` field (claim C10) -/

/-- C10, counterexample: an input omitting `total` is rejected with a
`KeyError` on `"total"` and no certificate is produced, refuting the claim
that `total` is optional. -/
theorem C10_counterexample :
    run toyHasher 1 (⟨"0xdead", none, []⟩ : InputData) =
      .error (.keyErr "total") := by rfl

/-- C10, amended: the `total` field is required, not optional: an input
omitting it aborts with `KeyError "total"` before any certificate is written;
when present, its value is copied into the certificate unchanged, without
being cross-checked against the sum of the leaf amounts. -/
theorem C10_total_required_unchecked_copy (H : Hasher) (fuel : Nat)
    (input : InputData) :
    (input.total = none → run H fuel input = .error (.keyErr "total")) ∧
    (∀ t c, input.total = some t → run H fuel input = .ok c → c.total = t) := by
  constructor
  · intro h
    simp [run, h]
  · intro t c ht hok
    simp only [run, ht] at hok
    split at hok
    case _ e hww => cases hok
    case _ acc hww => cases hok; rfl

/-- Input whose claimed `total` (999) disagrees with the leaf sum (100). -/
def inputT : InputData := ⟨hashA, some 999, [⟨"0xa", 100, []⟩]⟩

/-- Certificate produced on `inputT`: the mismatched total is copied through. -/
def certT : Cert := ⟨hashA, 999, [⟨"0xa", 100⟩], [], 1, 0⟩

/-- C10, witness: a missing `total` aborts the concrete empty run, and on
`inputT` the claimed total 999 is copied through although the leaf amounts sum
to 100. -/
theorem C10_witness :
    run toyHasher 1 (⟨"0x0", none, []⟩ : InputData) = .error (.keyErr "total") ∧
    certT.total = 999 :=
  ⟨(C10_total_required_unchecked_copy toyHasher 1 ⟨"0x0", none, []⟩).1 rfl,
   (C10_total_required_unchecked_copy toyHasher 1 inputT).2 999 certT rfl (by rfl)⟩
